import Mathlib

/-!
Verification of the metric aggregation and normalization pipeline of the
Amey-Thakur profile repository (generate_stats.py, languages.py, stats.py).

Python dictionaries are modelled as insertion-ordered association lists with
unique keys (`Langs`), floating point arithmetic as exact rational arithmetic
(`ℚ`), and fallible operations (a division whose divisor can be zero raises
`ZeroDivisionError` in Python) as `Option`-returning functions.
-/

/-- Association-list model of a Python `dict` from language name to numeric
weight, in insertion order. -/
abbrev Langs := List (String × ℚ)

/-- Keys of the dictionary, in order. -/
def keys (l : Langs) : List String := l.map Prod.fst

/-- Sum of all values of the dictionary (`sum(d.values())`). -/
def sumValues (l : Langs) : ℚ := (l.map Prod.snd).sum

/-- Lookup with default 0: models `d.get(k, 0)` (and `d[k]` at call sites
that are guarded by `k in d`). -/
def dictGet : Langs → String → ℚ
  | [], _ => 0
  | (k, v) :: rest, p => if k = p then v else dictGet rest p

/-- In-place additive update: models `d[k] = d.get(k, 0) + q`, keeping a key's
position when it is already present and appending it otherwise, as a Python
dict does. -/
def dictAdd : Langs → String → ℚ → Langs
  | [], k, q => [(k, q)]
  | (k₀, v₀) :: rest, k, q =>
      if k₀ = k then (k₀, v₀ + q) :: rest else (k₀, v₀) :: dictAdd rest k q

/-- `PRIORITY_LANGS` constant shared by generate_stats.py (line 64) and
languages.py (line 47). -/
def PRIORITY_LANGS : List String := ["R", "Julia", "MATLAB", "LaTeX", "C++", "Python"]

/-- Stable sort by value, descending: models Python
`sorted(pairs, key=lambda x: x[1], reverse=True)`. -/
def sortByValueDesc (l : Langs) : Langs :=
  List.insertionSort (fun a b : String × ℚ => b.2 ≤ a.2) l

instance : DecidableRel (fun a b : String × ℚ => b.2 ≤ a.2) :=
  fun a b => inferInstanceAs (Decidable (b.2 ≤ a.2))

instance : IsTotal (String × ℚ) (fun a b => b.2 ≤ a.2) :=
  ⟨fun a b => le_total b.2 a.2⟩

instance : IsTrans (String × ℚ) (fun a b => b.2 ≤ a.2) :=
  ⟨fun _ _ _ h₁ h₂ => le_trans h₂ h₁⟩

/-- Steps 1-3 of generate_stats.py `create_langs_svg` (lines 191-209): the
priority languages present in `langs` are force-included first (cap 18), the
remaining slots are filled with the highest-weight languages not already
seen, and the selection is re-sorted descending by weight. -/
def selectVisible (langs : Langs) : Langs :=
  let vis1 := PRIORITY_LANGS.foldl
    (fun vis p =>
      if p ∈ keys langs ∧ vis.length < 18 then vis ++ [(p, dictGet langs p)] else vis) []
  let sorted_remaining :=
    sortByValueDesc (langs.filter (fun kv => decide (kv.1 ∉ keys vis1)))
  let vis2 := sorted_remaining.foldl
    (fun vis kv => if vis.length < 18 then vis ++ [kv] else vis) vis1
  sortByValueDesc vis2

/-- Initial proportional distribution of generate_stats.py lines 212-217 (and
languages.py lines 94-96): the total is replaced by 1 when it is zero, then
every entry becomes `weight / total * 100`. -/
def normalizeInit (vis : Langs) : Langs :=
  let total_raw := sumValues vis
  let t := if total_raw = 0 then 1 else total_raw
  vis.map (fun kv => (kv.1, kv.2 / t * 100))

/-- Visibility floor of generate_stats.py lines 220-222 (and languages.py
lines 99-101): a priority entry below 1.0 is raised to 1.0. -/
def applyFloor (vis : Langs) : Langs :=
  vis.map (fun kv => (kv.1, if kv.1 ∈ PRIORITY_LANGS ∧ kv.2 < 1 then 1 else kv.2))

/-- Re-normalization of generate_stats.py lines 225-227. There is no zero
guard on `total_adj` in this file: when the list is non-empty and its total
is 0 the Python loop raises `ZeroDivisionError`, modelled as `none`. -/
def renorm (vis : Langs) : Option Langs :=
  let total_adj := sumValues vis
  if vis = [] then some []
  else if total_adj = 0 then none
  else some (vis.map (fun kv => (kv.1, kv.2 / total_adj * 100)))

/-- Selection-and-normalization core of `create_langs_svg` in
generate_stats.py (lines 191-227), returning the final visible percentage
list (`none` models the unguarded division by zero in the re-normalization
step). -/
def create_langs_svg (langs : Langs) : Option Langs :=
  renorm (applyFloor (normalizeInit (selectVisible langs)))

/-- Guarded normalization step of languages.py (lines 94-96 and 104-106):
`total = sum(...) or 1`, then `weight / total * 100` for every entry. -/
def renormLG (vis : Langs) : Langs :=
  let t₀ := sumValues vis
  let t := if t₀ = 0 then 1 else t₀
  vis.map (fun kv => (kv.1, kv.2 / t * 100))

/-- Selection-and-normalization core of `create_langs_svg` in languages.py
(lines 91-109): top-18 by weight (no force-include), guarded normalization,
floor, guarded re-normalization, final descending sort. -/
def create_langs_svg_lg (langs : Langs) : Langs :=
  let visible := (sortByValueDesc langs).take 18
  let visible := renormLG visible
  let visible := applyFloor visible
  let visible := renormLG visible
  sortByValueDesc visible

/-- Per-repository data consumed by the language aggregation loops: the fork
flag, the repository name, and the result of fetching its `languages_url`
(`none` models a failed fetch; the list is the language-to-byte-count map). -/
structure LangRepo where
  fork : Bool
  name : String
  langs : Option (List (String × Nat))
deriving DecidableEq

/-- Total bytes of one repository's language map (`sum(ld.values())`). -/
def repoTotal (ld : List (String × Nat)) : Nat := (ld.map Prod.snd).sum

/-- One iteration of the diversity-weighted aggregation loop of languages.py
(lines 206-217): forks are skipped, a failed fetch (`None`) and an empty or
zero-total language map contribute nothing, and otherwise each language adds
`(bytes / repo_total) / len(repos)` to the accumulator. `n` is `len(repos)`,
the divisor the source uses (the decremented `repo_count` is never used as a
divisor). -/
def aggStepLG (n : Nat) (acc : Langs) (r : LangRepo) : Langs :=
  if r.fork then acc
  else
    match r.langs with
    | none => acc
    | some ld =>
      if ld = [] then acc
      else if 0 < repoTotal ld then
        ld.foldl (fun a kv => dictAdd a kv.1 ((kv.2 : ℚ) / (repoTotal ld : ℚ) / (n : ℚ))) acc
      else acc

/-- Aggregation loop of languages.py `main` (lines 205-217). -/
def aggregateLG (repos : List LangRepo) : Langs :=
  repos.foldl (aggStepLG repos.length) []

/-- Boolean test for the ASCII-lowercase of a character (models `str.lower()`
on the ASCII language and repository names involved). -/
def lowerChars (s : List Char) : List Char := s.map Char.toLower

/-- Tests whether the first list is an initial segment of the second. -/
def leadsWith : List Char → List Char → Bool
  | [], _ => true
  | _ :: _, [] => false
  | a :: ps, b :: ss => a == b && leadsWith ps ss

/-- Substring test: models Python `needle in haystack` on strings. -/
def hasSub (needle : List Char) : List Char → Bool
  | [] => needle.isEmpty
  | c :: rest => leadsWith needle (c :: rest) || hasSub needle rest

/-- One iteration of the aggregation loop of generate_stats.py `main`
(lines 324-337): no fork skip; a truthy language map contributes
diversity-weighted densities, while a falsy one (failed fetch or empty map)
triggers the priority-language name-substring boost of `0.1 / repo_count`. -/
def aggStepGS (n : Nat) (acc : Langs) (r : LangRepo) : Langs :=
  match r.langs with
  | some (kv₀ :: rest) =>
    let ld := kv₀ :: rest
    if 0 < repoTotal ld then
      ld.foldl (fun a kv => dictAdd a kv.1 ((kv.2 : ℚ) / (repoTotal ld : ℚ) / (n : ℚ))) acc
    else acc
  | _ =>
    PRIORITY_LANGS.foldl
      (fun a p =>
        if hasSub (lowerChars p.toList) (lowerChars r.name.toList)
        then dictAdd a p (1 / 10 / (n : ℚ)) else a) acc

/-- Aggregation loop of generate_stats.py `main` (lines 323-337). -/
def aggregateGS (repos : List LangRepo) : Langs :=
  repos.foldl (aggStepGS repos.length) []

/-- Removes every occurrence of `"k+"`, scanning left to right: models
Python `s.replace("k+", "")`. -/
def replaceKPlus : List Char → List Char
  | 'k' :: '+' :: rest => replaceKPlus rest
  | c :: rest => c :: replaceKPlus rest
  | [] => []

/-- Removes every occurrence of `"k"`: models Python `s.replace("k", "")`. -/
def replaceK : List Char → List Char
  | 'k' :: rest => replaceK rest
  | c :: rest => c :: replaceK rest
  | [] => []

/-- Numeric value of a decimal digit character. -/
def digitVal (c : Char) : Nat := c.toNat - '0'.toNat

/-- Decimal digit test. -/
def isDigit (c : Char) : Bool := '0' ≤ c && c ≤ '9'

/-- Value of a digit string read in base 10. -/
def natOfDigits (s : List Char) : Nat := s.foldl (fun a c => a * 10 + digitVal c) 0

/-- Models Python `float(s)` on the plain decimal literals this pipeline
produces and caches (`"17"`, `"17.4"`, `"13.8"`): an optional single point
separating two digit strings, at least one of them non-empty. Anything else
(for which `float` raises `ValueError`) is `none`. -/
def parseFloat (s : List Char) : Option ℚ :=
  let ip := s.takeWhile (fun c => c ≠ '.')
  let rest := s.dropWhile (fun c => c ≠ '.')
  match rest with
  | [] =>
    if ip ≠ [] ∧ ip.all isDigit then some (natOfDigits ip : ℚ) else none
  | _ :: fp =>
    if (ip ≠ [] ∨ fp ≠ []) ∧ ip.all isDigit ∧ fp.all isDigit then
      some ((natOfDigits ip : ℚ) + (natOfDigits fp : ℚ) / 10 ^ fp.length)
    else none

/-- Commit-string parser of `calculate_grade` (stats.py lines 96-97,
generate_stats.py lines 107-108): if the string contains a `k`, strip
`"k+"` then `"k"` and multiply the parsed value by 1000, else parse it
directly. -/
def parse_commits (s : List Char) : Option ℚ :=
  if 'k' ∈ s then
    (parseFloat (replaceK (replaceKPlus s))).map (fun q => q * 1000)
  else parseFloat s

/-- Compact commit-count formatter of stats.py lines 281 and 288:
`f"{int(c/100)/10}k"` once the count reaches 1000, else `str(c)`. For the
counts in range, `int(c/100)` agrees with integer division by 100 and the
shortest repr of the float `m/10` is the digit string of `m/10` followed by
`.` and the digit `m%10`. -/
def format_commits (c : Nat) : List Char :=
  if 1000 ≤ c then
    Nat.toDigits 10 (c / 100 / 10) ++ '.' :: Nat.toDigits 10 (c / 100 % 10) ++ ['k']
  else Nat.toDigits 10 c

/-- Weighted score of stats.py `calculate_grade` (line 105); `commits` is
the already-parsed commit count. -/
def score_st (stars : Nat) (commits : ℚ) (prs issues contribs : Nat) : ℚ :=
  (stars : ℚ) * 10 + commits * (3 / 2) + (prs : ℚ) * 50 + (issues : ℚ) * 5 + (contribs : ℚ) * 100

/-- Threshold table of stats.py `calculate_grade` (lines 108-113). -/
def grade_st (score : ℚ) : String × Nat :=
  if score > 20000 then ("A+", 98)
  else if score > 15000 then ("A", 90)
  else if score > 10000 then ("A-", 80)
  else if score > 5000 then ("B+", 65)
  else if score > 2000 then ("B", 50)
  else ("C", 30)

/-- Weighted score of generate_stats.py `calculate_grade` (line 114); the
weights coincide with stats.py. -/
def score_gs (stars : Nat) (commits : ℚ) (prs issues contribs : Nat) : ℚ :=
  (stars : ℚ) * 10 + commits * (3 / 2) + (prs : ℚ) * 50 + (issues : ℚ) * 5 + (contribs : ℚ) * 100

/-- Threshold table of generate_stats.py `calculate_grade` (lines 116-122). -/
def grade_gs (score : ℚ) : String × Nat :=
  if score > 8000 then ("A+", 95)
  else if score > 6000 then ("A", 85)
  else if score > 4000 then ("A-", 75)
  else if score > 3000 then ("B+", 65)
  else if score > 2000 then ("B", 55)
  else if score > 1000 then ("B-", 45)
  else ("C", 30)

/-- Snapshot dictionary handled by stats.py `main` and its cache: the commit
field is the formatted string, all other fields are non-negative integers. -/
structure StatsDict where
  stars : Nat
  commits : List Char
  prs : Nat
  issues : Nat
  contribs : Nat
deriving DecidableEq

/-- Full grader of stats.py (lines 87-113): parses the commit string, then
scores and ranks. `none` models the `ValueError` float parsing would raise
on an unparseable commit string. -/
def calculate_grade (s : StatsDict) : Option (String × Nat) :=
  (parse_commits s.commits).map
    (fun c => grade_st (score_st s.stars c s.prs s.issues s.contribs))

/-- Pagination loop shared by stats.py lines 241-248, generate_stats.py
lines 298-306 and languages.py lines 192-199: starting at page 1, request a
page; a `None` or empty response stops the loop, a full page (100 records)
continues with the next page number, an undersized page is kept and stops
the loop. The result pairs the accumulated records with the list of page
numbers actually requested; `fuel` bounds the recursion and is irrelevant as
soon as it exceeds the number of pages served. -/
def fetchLoop {α : Type} (src : Nat → Option (List α)) : Nat → Nat → List α × List Nat
  | 0, _ => ([], [])
  | fuel + 1, page =>
    match src page with
    | none => ([], [page])
    | some l =>
      if l.length = 0 then ([], [page])
      else if l.length < 100 then (l, [page])
      else
        let r := fetchLoop src fuel (page + 1)
        (l ++ r.1, page :: r.2)

/-- Repository record consumed by stats.py `main`. -/
structure StRepo where
  stargazers_count : Nat
  open_issues_count : Nat
  owner_login : String
deriving DecidableEq

/-- Pull-request search response of stats.py lines 258-269: the total count
and, per item, the repository owner extracted from `repository_url` by the
regex (`none` models a URL the regex does not match). -/
structure PrSearch where
  total_count : Nat
  item_owners : List (Option String)

/-- External world of one stats.py run: the repository listing endpoint, the
pull-request search, the streak endpoint (already reduced to the parsed
total-contribution count, `none` covering fetch and regex failure), the
commit-search fallback, and the cache file contents. -/
structure StatsEnv where
  listRepos : Nat → Option (List StRepo)
  pr_search : Option PrSearch
  streak : Option Nat
  commit_search : Option Nat
  cache : Option StatsDict

/-- Subject identity hardcoded in all three scripts. -/
def username : String := "Amey-Thakur"

/-- Control flow of stats.py `main` (lines 227-321), reduced to the data it
renders and persists: the first component is the snapshot handed to
`create_stats_svg` (`none` models the CRITICAL branch that renders nothing),
the second is the snapshot written to the cache file (`none` when no write
occurs). The only exception reaching the handler is the empty repository
list; every other fetch failure is absorbed locally. -/
def mainStats (env : StatsEnv) (fuel : Nat) : Option StatsDict × Option StatsDict :=
  let all_repos := (fetchLoop env.listRepos fuel 1).1
  if all_repos = [] then
    match env.cache with
    | some c => (some c, none)
    | none => (none, none)
  else
    let stars := (all_repos.map StRepo.stargazers_count).sum
    let issues := (all_repos.map StRepo.open_issues_count).sum
    let pc : Nat × Nat :=
      match env.pr_search with
      | none => (0, 0)
      | some ps =>
        let ctx := (all_repos.map StRepo.owner_login ++ ps.item_owners.filterMap id).dedup
        (ps.total_count, max 1 (ctx.length - (if username ∈ ctx then 1 else 0)))
    let commits :=
      match env.streak with
      | some c => format_commits c
      | none => format_commits (env.commit_search.getD 0)
    let s : StatsDict := ⟨stars, commits, pc.1, issues, pc.2⟩
    (some s, if 0 < stars then some s else none)

/-- External world of one languages.py run. -/
structure LangsEnv where
  listRepos : Nat → Option (List LangRepo)
  cache : Option Langs

/-- Control flow of languages.py `main` (lines 181-249), reduced to the
distribution it renders and persists, in the same shape as `mainStats`: the
accumulator is persisted on the success path only when its value sum is
positive (line 220), and on the failure path the cached distribution is
rendered and nothing is written. -/
def mainLangs (env : LangsEnv) (fuel : Nat) : Option Langs × Option Langs :=
  let repos := (fetchLoop env.listRepos fuel 1).1
  if repos = [] then
    match env.cache with
    | some c => (some c, none)
    | none => (none, none)
  else
    let acc := aggregateLG repos
    (some acc, if 0 < sumValues acc then some acc else none)

/-- Two-repository portfolio of the diversity-weighted aggregation example:
one repository 100 percent Python with 1000 bytes, one 50/50 Python and R
with 1000 bytes in total. -/
def demoRepos : List LangRepo :=
  [⟨false, "r1", some [("Python", 1000)]⟩,
   ⟨false, "r2", some [("Python", 500), ("R", 500)]⟩]

/-- Three-repository portfolio exercising the aggregation invariant: a fork,
a successfully fetched non-fork, and a non-fork whose language fetch failed. -/
def invRepos : List LangRepo :=
  [⟨true, "fork-repo", some [("HTML", 10)]⟩,
   ⟨false, "good-repo", some [("Python", 600), ("R", 400)]⟩,
   ⟨false, "dead-repo", none⟩]

/-- Environment in which every fetch fails and the cache holds the snapshot
stars 500, commits "10k+", prs 20, issues 5, contribs 3. -/
def envAllFail : StatsEnv :=
  ⟨fun _ => none, none, none, none, some ⟨500, "10k+".toList, 20, 5, 3⟩⟩

/-- Environment of one successful stats.py run over a single repository. -/
def envOneRepo : StatsEnv :=
  ⟨fun n => if n = 1 then some [⟨7, 2, "Amey-Thakur"⟩] else none,
   some ⟨4, [some "octo-org", none]⟩, some 17432, none, none⟩

/-- Environment of one successful languages.py run over a single repository. -/
def envOneLangRepo : LangsEnv :=
  ⟨fun n => if n = 1 then some [⟨false, "solo", some [("Python", 10)]⟩] else none, none⟩

/-- Listing source serving pages of sizes 100, 100 and 37. -/
def pagedSrc : Nat → Option (List Nat) :=
  fun n =>
    if n = 1 then some (List.replicate 100 0)
    else if n = 2 then some (List.replicate 100 1)
    else if n = 3 then some (List.replicate 37 2)
    else none

/-- Count of accumulation-relevant repositories in the languages.py loop: the
non-forks whose language fetch succeeded with a nonzero byte total. -/
def goodRepo (r : LangRepo) : Bool :=
  !r.fork && (match r.langs with
    | some ld => decide (0 < repoTotal ld)
    | none => false)

/-- Force-included priority part of the visible selection (the value of
`visible_langs` after step 1 of generate_stats.py `create_langs_svg`). -/
def prioVis (langs : Langs) : Langs :=
  (PRIORITY_LANGS.filter (fun p => decide (p ∈ keys langs))).map
    (fun p => (p, dictGet langs p))

/-- Distribution with nineteen languages of weight 100 and the priority
language R at the bottom with weight 1: more than 18 entries outrank R. -/
def wideLangs : Langs :=
  [("L01", 100), ("L02", 100), ("L03", 100), ("L04", 100), ("L05", 100),
   ("L06", 100), ("L07", 100), ("L08", 100), ("L09", 100), ("L10", 100),
   ("L11", 100), ("L12", 100), ("L13", 100), ("L14", 100), ("L15", 100),
   ("L16", 100), ("L17", 100), ("L18", 100), ("L19", 100), ("R", 1)]

/-!  Helper lemmas about the dictionary model. -/

theorem keys_append (a b : Langs) : keys (a ++ b) = keys a ++ keys b :=
  List.map_append _ a b

theorem sumValues_append (a b : Langs) : sumValues (a ++ b) = sumValues a + sumValues b := by
  simp [sumValues]

theorem dictGet_mem {l : Langs} {p : String} (h : p ∈ keys l) : (p, dictGet l p) ∈ l := by
  induction l with
  | nil => simp [keys] at h
  | cons kv rest ih =>
    by_cases hk : kv.1 = p
    · simp [dictGet, ← hk]
    · have : p ∈ keys rest := by
        simpa [keys, Ne.symm hk] using h
      simp only [dictGet]
      rw [if_neg hk]
      exact List.mem_cons_of_mem _ (ih this)

theorem dictGet_eq_of_mem {l : Langs} {p : String} {v : ℚ}
    (hnd : (keys l).Nodup) (h : (p, v) ∈ l) : dictGet l p = v := by
  induction l with
  | nil => simp at h
  | cons kv rest ih =>
    simp only [keys, List.map_cons, List.nodup_cons] at hnd
    rcases List.mem_cons.mp h with h₁ | h₂
    · simp [← h₁, dictGet]
    · have hk : kv.1 ≠ p := by
        intro he
        exact hnd.1 (he ▸ List.mem_map_of_mem Prod.fst h₂)
      simp only [dictGet]
      rw [if_neg hk]
      exact ih hnd.2 h₂

theorem dictGet_nonneg {l : Langs} (h : ∀ kv ∈ l, 0 ≤ kv.2) (p : String) :
    0 ≤ dictGet l p := by
  induction l with
  | nil => simp [dictGet]
  | cons kv rest ih =>
    simp only [dictGet]
    split
    · exact h kv (List.mem_cons_self kv rest)
    · exact ih (fun x hx => h x (List.mem_cons_of_mem _ hx))

theorem dictGet_eq_zero {l : Langs} {p : String} (h : p ∉ keys l) : dictGet l p = 0 := by
  induction l with
  | nil => rfl
  | cons kv rest ih =>
    have hk : kv.1 ≠ p := fun he => h (he ▸ List.mem_map_of_mem Prod.fst (List.mem_cons_self kv rest))
    simp only [dictGet]
    rw [if_neg hk]
    exact ih (fun hm => h (List.mem_cons_of_mem _ hm))

theorem mem_keys_of_dictGet_pos {l : Langs} {p : String} (h : 0 < dictGet l p) :
    p ∈ keys l := by
  by_contra hc
  rw [dictGet_eq_zero hc] at h
  exact lt_irrefl 0 h

theorem sumValues_dictAdd (l : Langs) (k : String) (q : ℚ) :
    sumValues (dictAdd l k q) = sumValues l + q := by
  induction l with
  | nil => simp [dictAdd, sumValues]
  | cons kv rest ih =>
    simp only [dictAdd]
    split
    · simp [sumValues]; ring
    · simp [sumValues] at ih ⊢
      rw [ih]; ring

/-!  Helper lemmas about the stable descending sort. -/

theorem sortByValueDesc_perm (l : Langs) : (sortByValueDesc l).Perm l :=
  List.perm_insertionSort _ l

theorem sumValues_sortByValueDesc (l : Langs) :
    sumValues (sortByValueDesc l) = sumValues l :=
  ((sortByValueDesc_perm l).map Prod.snd).sum_eq

theorem mem_sortByValueDesc {x : String × ℚ} {l : Langs} :
    x ∈ sortByValueDesc l ↔ x ∈ l :=
  (sortByValueDesc_perm l).mem_iff

theorem keys_nodup_sortByValueDesc {l : Langs} (h : (keys l).Nodup) :
    (keys (sortByValueDesc l)).Nodup :=
  (((sortByValueDesc_perm l).map Prod.fst).nodup_iff).mpr h

theorem sorted_sortByValueDesc (l : Langs) :
    List.Sorted (fun a b : String × ℚ => b.2 ≤ a.2) (sortByValueDesc l) :=
  List.sorted_insertionSort _ l

/-!  Lemmas about value-transforming maps over a dictionary. -/

theorem keys_mapVal (g : String → ℚ → ℚ) (l : Langs) :
    keys (l.map (fun kv => (kv.1, g kv.1 kv.2))) = keys l := by
  simp [keys, List.map_map]

theorem dictGet_mapVal (g : String → ℚ → ℚ) {l : Langs} {p : String} (h : p ∈ keys l) :
    dictGet (l.map (fun kv => (kv.1, g kv.1 kv.2))) p = g p (dictGet l p) := by
  induction l with
  | nil => simp [keys] at h
  | cons kv rest ih =>
    by_cases hk : kv.1 = p
    · subst hk
      simp [dictGet]
    · have : p ∈ keys rest := by simpa [keys, Ne.symm hk] using h
      simp only [List.map_cons, dictGet]
      rw [if_neg hk, if_neg hk]
      exact ih this

theorem sumValues_scale (l : Langs) (t : ℚ) :
    sumValues (l.map (fun kv => (kv.1, kv.2 / t * 100))) = sumValues l / t * 100 := by
  induction l with
  | nil => simp [sumValues]
  | cons kv rest ih =>
    simp only [List.map_cons, sumValues, List.map_cons, List.sum_cons] at ih ⊢
    rw [ih]
    ring

/-!  Closed form of the visible-set selection. -/

theorem foldPrio_eq (langs : Langs) :
    ∀ (ps : List String) (acc : Langs), acc.length + ps.length ≤ 18 →
      ps.foldl
        (fun vis p =>
          if p ∈ keys langs ∧ vis.length < 18 then vis ++ [(p, dictGet langs p)] else vis) acc
      = acc ++ (ps.filter (fun p => decide (p ∈ keys langs))).map
          (fun p => (p, dictGet langs p)) := by
  intro ps
  induction ps with
  | nil => intro acc _; simp
  | cons p rest ih =>
    intro acc hlen
    by_cases hp : p ∈ keys langs
    · have hcap : acc.length < 18 := by simp at hlen; omega
      simp only [List.foldl_cons]
      rw [if_pos ⟨hp, hcap⟩, ih (acc ++ [(p, dictGet langs p)]) (by simp at hlen ⊢; omega)]
      simp [hp]
    · simp only [List.foldl_cons]
      rw [if_neg (fun hc => hp hc.1), ih acc (by simp at hlen ⊢; omega)]
      simp [hp]

theorem foldCap_eq :
    ∀ (l : Langs) (acc : Langs),
      l.foldl (fun vis kv => if vis.length < 18 then vis ++ [kv] else vis) acc
      = acc ++ l.take (18 - acc.length) := by
  intro l
  induction l with
  | nil => intro acc; simp
  | cons kv rest ih =>
    intro acc
    by_cases hcap : acc.length < 18
    · simp only [List.foldl_cons]
      rw [if_pos hcap, ih (acc ++ [kv])]
      have h18 : 18 - acc.length = (18 - (acc ++ [kv]).length) + 1 := by simp; omega
      rw [h18]
      simp
    · simp only [List.foldl_cons]
      rw [if_neg hcap, ih acc]
      have h18 : 18 - acc.length = 0 := by omega
      rw [h18]
      simp [List.take]

theorem selectVisible_eq (langs : Langs) :
    selectVisible langs =
      sortByValueDesc
        (prioVis langs ++
          (sortByValueDesc (langs.filter (fun kv => decide (kv.1 ∉ keys (prioVis langs))))).take
            (18 - (prioVis langs).length)) := by
  unfold selectVisible
  simp only [foldPrio_eq langs PRIORITY_LANGS [] (by decide), foldCap_eq, List.nil_append]
  simp [prioVis]

/-!  Structural facts about the visible selection. -/

theorem length_prioVis_le (langs : Langs) : (prioVis langs).length ≤ 6 := by
  have h := List.length_filter_le (fun p => decide (p ∈ keys langs)) PRIORITY_LANGS
  simpa [prioVis, PRIORITY_LANGS] using h

theorem keys_prioVis (langs : Langs) :
    keys (prioVis langs) = PRIORITY_LANGS.filter (fun p => decide (p ∈ keys langs)) := by
  simp only [prioVis, keys, List.map_map]
  exact List.map_id _

theorem keys_prioVis_nodup (langs : Langs) : (keys (prioVis langs)).Nodup := by
  rw [keys_prioVis]
  exact List.Nodup.filter _ (by decide)

theorem keys_prioVis_subset (langs : Langs) : keys (prioVis langs) ⊆ PRIORITY_LANGS := by
  rw [keys_prioVis]
  exact fun x hx => (List.mem_filter.mp hx).1

theorem mem_prioVis {langs : Langs} {p : String}
    (hp : p ∈ PRIORITY_LANGS) (hk : p ∈ keys langs) :
    (p, dictGet langs p) ∈ prioVis langs := by
  apply List.mem_map_of_mem
  exact List.mem_filter.mpr ⟨hp, by simpa using hk⟩

theorem mem_prioVis_sub {langs : Langs} {x : String × ℚ} (hx : x ∈ prioVis langs) : x ∈ langs := by
  rcases List.mem_map.mp hx with ⟨p, hp, rfl⟩
  have : p ∈ keys langs := by simpa using (List.mem_filter.mp hp).2
  exact dictGet_mem this

theorem mem_selectVisible_prio {langs : Langs} {p : String}
    (hp : p ∈ PRIORITY_LANGS) (hk : p ∈ keys langs) :
    (p, dictGet langs p) ∈ selectVisible langs := by
  rw [selectVisible_eq]
  exact mem_sortByValueDesc.mpr (List.mem_append_left _ (mem_prioVis hp hk))

theorem selectVisible_subset {langs : Langs} {x : String × ℚ}
    (hx : x ∈ selectVisible langs) : x ∈ langs := by
  rw [selectVisible_eq] at hx
  rcases List.mem_append.mp (mem_sortByValueDesc.mp hx) with h₁ | h₂
  · exact mem_prioVis_sub h₁
  · have hs : x ∈ sortByValueDesc
        (langs.filter (fun kv => decide (kv.1 ∉ keys (prioVis langs)))) :=
      List.mem_of_mem_take h₂
    exact (List.mem_filter.mp (mem_sortByValueDesc.mp hs)).1

theorem length_selectVisible_le (langs : Langs) : (selectVisible langs).length ≤ 18 := by
  have hp := (sortByValueDesc_perm
    (prioVis langs ++
      (sortByValueDesc (langs.filter (fun kv => decide (kv.1 ∉ keys (prioVis langs))))).take
        (18 - (prioVis langs).length))).length_eq
  rw [selectVisible_eq, hp, List.length_append]
  have h₁ := length_prioVis_le langs
  have h₂ := List.length_take_le (18 - (prioVis langs).length)
    (sortByValueDesc (langs.filter (fun kv => decide (kv.1 ∉ keys (prioVis langs)))))
  omega

theorem keys_selectVisible_nodup {langs : Langs} (hnd : (keys langs).Nodup) :
    (keys (selectVisible langs)).Nodup := by
  rw [selectVisible_eq]
  apply keys_nodup_sortByValueDesc
  rw [keys_append]
  apply List.Nodup.append (keys_prioVis_nodup langs)
  · have hfil : (keys (langs.filter (fun kv => decide (kv.1 ∉ keys (prioVis langs))))).Nodup :=
      ((List.filter_sublist langs).map Prod.fst).nodup hnd
    have hsor : (keys (sortByValueDesc
        (langs.filter (fun kv => decide (kv.1 ∉ keys (prioVis langs)))))).Nodup :=
      keys_nodup_sortByValueDesc hfil
    exact ((List.take_sublist _ _).map Prod.fst).nodup hsor
  · intro a ha hb
    rcases List.mem_map.mp hb with ⟨kv, hkv, rfl⟩
    have hkv' : kv ∈ langs.filter (fun kv => decide (kv.1 ∉ keys (prioVis langs))) :=
      mem_sortByValueDesc.mp (List.mem_of_mem_take hkv)
    have : kv.1 ∉ keys (prioVis langs) := by
      simpa using (List.mem_filter.mp hkv').2
    exact this ha

theorem values_nonneg_selectVisible {langs : Langs}
    (h : ∀ kv ∈ langs, 0 ≤ kv.2) : ∀ kv ∈ selectVisible langs, 0 ≤ kv.2 :=
  fun kv hkv => h kv (selectVisible_subset hkv)

/-!  Positivity of the selected total. -/

theorem sumValues_ge_of_mem {l : Langs} {x : String × ℚ}
    (hall : ∀ kv ∈ l, 0 ≤ kv.2) (hx : x ∈ l) : x.2 ≤ sumValues l := by
  apply List.single_le_sum (l := l.map Prod.snd)
  · intro q hq
    rcases List.mem_map.mp hq with ⟨kv, hkv, rfl⟩
    exact hall kv hkv
  · exact List.mem_map_of_mem Prod.snd hx

theorem pos_of_mem_take_sort {l : Langs} {x : String × ℚ} {n : Nat}
    (hall : ∀ kv ∈ l, 0 ≤ kv.2) (hx : x ∈ l) (hpos : 0 < x.2) (hn : 0 < n) :
    0 < sumValues ((sortByValueDesc l).take n) := by
  set s := sortByValueDesc l with hs
  have hall' : ∀ kv ∈ s, 0 ≤ kv.2 := fun kv hkv => hall kv (mem_sortByValueDesc.mp hkv)
  have hxs : x ∈ s := mem_sortByValueDesc.mpr hx
  have htparts : s.take n ++ s.drop n = s := List.take_append_drop n s
  have htake_all : ∀ kv ∈ s.take n, 0 ≤ kv.2 :=
    fun kv hkv => hall' kv (List.mem_of_mem_take hkv)
  rcases List.mem_append.mp (htparts ▸ hxs) with hin | hout
  · have := sumValues_ge_of_mem htake_all hin
    linarith
  · have hne : s.take n ≠ [] := by
      have hlen : 0 < s.length := List.length_pos.mpr (List.ne_nil_of_mem hxs)
      have : 0 < (s.take n).length := by
        rw [List.length_take]
        omega
      exact List.ne_nil_of_length_pos this
    rcases List.exists_mem_of_ne_nil _ hne with ⟨y, hy⟩
    have hsorted : List.Pairwise (fun a b : String × ℚ => b.2 ≤ a.2) (s.take n ++ s.drop n) := by
      rw [htparts]
      exact sorted_sortByValueDesc l
    have hyx : x.2 ≤ y.2 := (List.pairwise_append.mp hsorted).2.2 y hy x hout
    have := sumValues_ge_of_mem htake_all hy
    linarith

theorem sumValues_nonneg {l : Langs} (h : ∀ kv ∈ l, 0 ≤ kv.2) : 0 ≤ sumValues l := by
  apply List.sum_nonneg
  intro q hq
  rcases List.mem_map.mp hq with ⟨kv, hkv, rfl⟩
  exact h kv hkv

theorem sumValues_selectVisible_pos {langs : Langs} {x : String × ℚ}
    (hnd : (keys langs).Nodup) (hnn : ∀ kv ∈ langs, 0 ≤ kv.2)
    (hx : x ∈ langs) (hxpos : 0 < x.2) :
    0 < sumValues (selectVisible langs) := by
  rw [selectVisible_eq, sumValues_sortByValueDesc, sumValues_append]
  have hprio_nn : ∀ kv ∈ prioVis langs, 0 ≤ kv.2 :=
    fun kv hkv => hnn kv (mem_prioVis_sub hkv)
  have htake_nn : ∀ kv ∈ (sortByValueDesc
      (langs.filter (fun kv => decide (kv.1 ∉ keys (prioVis langs))))).take
        (18 - (prioVis langs).length), 0 ≤ kv.2 := by
    intro kv hkv
    exact hnn kv (List.mem_of_mem_filter (mem_sortByValueDesc.mp (List.mem_of_mem_take hkv)))
  by_cases hp : x.1 ∈ PRIORITY_LANGS
  · have hk : x.1 ∈ keys langs := List.mem_map_of_mem Prod.fst hx
    have hval : dictGet langs x.1 = x.2 := dictGet_eq_of_mem hnd hx
    have hmem : (x.1, dictGet langs x.1) ∈ prioVis langs := mem_prioVis hp hk
    have h₁ : x.2 ≤ sumValues (prioVis langs) := by
      have := sumValues_ge_of_mem hprio_nn hmem
      simpa [hval] using this
    have h₂ : 0 ≤ sumValues ((sortByValueDesc
        (langs.filter (fun kv => decide (kv.1 ∉ keys (prioVis langs))))).take
          (18 - (prioVis langs).length)) := sumValues_nonneg htake_nn
    linarith
  · have hx' : x ∈ langs.filter (fun kv => decide (kv.1 ∉ keys (prioVis langs))) := by
      refine List.mem_filter.mpr ⟨hx, ?_⟩
      simp only [decide_eq_true_eq]
      exact fun hc => hp (keys_prioVis_subset langs hc)
    have hn : 0 < 18 - (prioVis langs).length := by
      have := length_prioVis_le langs
      omega
    have h₁ : 0 < sumValues ((sortByValueDesc
        (langs.filter (fun kv => decide (kv.1 ∉ keys (prioVis langs))))).take
          (18 - (prioVis langs).length)) := by
      apply pos_of_mem_take_sort _ hx' hxpos hn
      intro kv hkv
      exact hnn kv (List.mem_of_mem_filter hkv)
    have h₂ : 0 ≤ sumValues (prioVis langs) := sumValues_nonneg hprio_nn
    linarith

/-!  Lemmas about the two normalization steps and the floor. -/

theorem renormLG_eq_normalizeInit : renormLG = normalizeInit := rfl

theorem normalizeInit_of_ne {vis : Langs} (h : sumValues vis ≠ 0) :
    normalizeInit vis = vis.map (fun kv => (kv.1, kv.2 / sumValues vis * 100)) := by
  unfold normalizeInit
  simp only [if_neg h]

theorem sumValues_normalizeInit {vis : Langs} (h : sumValues vis ≠ 0) :
    sumValues (normalizeInit vis) = 100 := by
  rw [normalizeInit_of_ne h, sumValues_scale, div_self h, one_mul]

theorem values_nonneg_normalizeInit {vis : Langs} (h : ∀ kv ∈ vis, 0 ≤ kv.2) :
    ∀ kv ∈ normalizeInit vis, 0 ≤ kv.2 := by
  unfold normalizeInit
  intro kv hkv
  rcases List.mem_map.mp hkv with ⟨kv₀, hkv₀, rfl⟩
  have ht : (0 : ℚ) ≤ (if sumValues vis = 0 then 1 else sumValues vis)⁻¹ := by
    split
    · norm_num
    · exact inv_nonneg.mpr (sumValues_nonneg h)
  have := h kv₀ hkv₀
  simp only [div_eq_mul_inv]
  positivity

theorem sumValues_le_applyFloor (vis : Langs) : sumValues vis ≤ sumValues (applyFloor vis) := by
  induction vis with
  | nil => simp [applyFloor]
  | cons kv rest ih =>
    simp only [applyFloor, List.map_cons, sumValues, List.sum_cons] at ih ⊢
    have hle : kv.2 ≤ if kv.1 ∈ PRIORITY_LANGS ∧ kv.2 < 1 then 1 else kv.2 := by
      split_ifs with hc
      · linarith [hc.2]
      · exact le_rfl
    linarith

theorem sumValues_applyFloor_le {vis : Langs} (h : ∀ kv ∈ vis, 0 ≤ kv.2) :
    sumValues (applyFloor vis) ≤
      sumValues vis + (vis.countP (fun kv => decide (kv.1 ∈ PRIORITY_LANGS)) : ℚ) := by
  induction vis with
  | nil => simp [applyFloor, sumValues]
  | cons kv rest ih =>
    have hrest := ih (fun x hx => h x (List.mem_cons_of_mem _ hx))
    have hkv := h kv (List.mem_cons_self kv rest)
    simp only [applyFloor, List.map_cons, sumValues, List.sum_cons, List.countP_cons] at hrest ⊢
    by_cases hc : kv.1 ∈ PRIORITY_LANGS ∧ kv.2 < 1
    · rw [if_pos hc]
      have hdec : decide (kv.1 ∈ PRIORITY_LANGS) = true := by simp [hc.1]
      simp only [hdec, if_true]
      push_cast
      linarith
    · rw [if_neg hc]
      by_cases hd : kv.1 ∈ PRIORITY_LANGS
      · have hdec : decide (kv.1 ∈ PRIORITY_LANGS) = true := by simp [hd]
        simp only [hdec, if_true]
        push_cast
        linarith
      · have hdec : decide (kv.1 ∈ PRIORITY_LANGS) = false := by simp [hd]
        simp only [hdec, Bool.false_eq_true, if_false]
        push_cast
        linarith

theorem countPrio_le_six {vis : Langs} (hnd : (keys vis).Nodup) :
    vis.countP (fun kv => decide (kv.1 ∈ PRIORITY_LANGS)) ≤ 6 := by
  rw [List.countP_eq_length_filter]
  have hkeys : (keys (vis.filter (fun kv => decide (kv.1 ∈ PRIORITY_LANGS)))).Nodup :=
    ((List.filter_sublist vis).map Prod.fst).nodup hnd
  have hsub : keys (vis.filter (fun kv => decide (kv.1 ∈ PRIORITY_LANGS))) ⊆ PRIORITY_LANGS := by
    intro a ha
    rcases List.mem_map.mp ha with ⟨kv, hkv, rfl⟩
    have := (List.mem_filter.mp hkv).2
    simpa using this
  have hsp := (hkeys.subperm hsub).length_le
  have hlen : (keys (vis.filter (fun kv => decide (kv.1 ∈ PRIORITY_LANGS)))).length
      = (vis.filter (fun kv => decide (kv.1 ∈ PRIORITY_LANGS))).length :=
    List.length_map _ _
  have h6 : PRIORITY_LANGS.length = 6 := rfl
  rw [hlen, h6] at hsp
  exact hsp

/-!  Central facts about the full normalization pipelines. -/

theorem create_svg_some {langs : Langs} {x : String × ℚ}
    (hnd : (keys langs).Nodup) (hnn : ∀ kv ∈ langs, 0 ≤ kv.2)
    (hx : x ∈ langs) (hxpos : 0 < x.2) :
    create_langs_svg langs =
      some ((applyFloor (normalizeInit (selectVisible langs))).map
        (fun kv =>
          (kv.1, kv.2 / sumValues (applyFloor (normalizeInit (selectVisible langs))) * 100)))
    ∧ 100 ≤ sumValues (applyFloor (normalizeInit (selectVisible langs))) := by
  have hpos : 0 < sumValues (selectVisible langs) :=
    sumValues_selectVisible_pos hnd hnn hx hxpos
  have hsum100 : sumValues (normalizeInit (selectVisible langs)) = 100 :=
    sumValues_normalizeInit (ne_of_gt hpos)
  have hfl100 : 100 ≤ sumValues (applyFloor (normalizeInit (selectVisible langs))) := by
    have := sumValues_le_applyFloor (normalizeInit (selectVisible langs))
    linarith [hsum100 ▸ this]
  have hvis_ne : selectVisible langs ≠ [] := by
    intro he
    rw [he] at hpos
    simp [sumValues] at hpos
  have hfl_ne : applyFloor (normalizeInit (selectVisible langs)) ≠ [] := by
    simp only [applyFloor, normalizeInit, ne_eq, List.map_eq_nil_iff]
    exact hvis_ne
  constructor
  · unfold create_langs_svg renorm
    rw [if_neg hfl_ne, if_neg (by linarith : sumValues (applyFloor (normalizeInit (selectVisible langs))) ≠ 0)]
  · exact hfl100

theorem create_svg_sum_100 {langs : Langs} {x : String × ℚ}
    (hnd : (keys langs).Nodup) (hnn : ∀ kv ∈ langs, 0 ≤ kv.2)
    (hx : x ∈ langs) (hxpos : 0 < x.2) :
    ∃ out, create_langs_svg langs = some out ∧ sumValues out = 100 := by
  obtain ⟨heq, hge⟩ := create_svg_some hnd hnn hx hxpos
  refine ⟨_, heq, ?_⟩
  rw [sumValues_scale, div_self (by linarith), one_mul]

theorem create_svg_lg_sum_100 {langs : Langs} {x : String × ℚ}
    (hnn : ∀ kv ∈ langs, 0 ≤ kv.2) (hx : x ∈ langs) (hxpos : 0 < x.2) :
    sumValues (create_langs_svg_lg langs) = 100 := by
  simp only [create_langs_svg_lg, renormLG_eq_normalizeInit]
  have hpos : 0 < sumValues ((sortByValueDesc langs).take 18) :=
    pos_of_mem_take_sort hnn hx hxpos (by norm_num)
  have h1 : sumValues (normalizeInit ((sortByValueDesc langs).take 18)) = 100 :=
    sumValues_normalizeInit (ne_of_gt hpos)
  have h2 : 100 ≤ sumValues (applyFloor (normalizeInit ((sortByValueDesc langs).take 18))) := by
    have := sumValues_le_applyFloor (normalizeInit ((sortByValueDesc langs).take 18))
    linarith [h1 ▸ this]
  rw [sumValues_sortByValueDesc]
  exact sumValues_normalizeInit (by linarith)

theorem priority_after_floor {langs : Langs} {p : String}
    (hnd : (keys langs).Nodup) (hnn : ∀ kv ∈ langs, 0 ≤ kv.2)
    (hp : p ∈ PRIORITY_LANGS) (hpos : 0 < dictGet langs p) :
    1 ≤ dictGet (applyFloor (normalizeInit (selectVisible langs))) p ∧
    sumValues (applyFloor (normalizeInit (selectVisible langs))) ≤ 106 := by
  have hk : p ∈ keys langs := mem_keys_of_dictGet_pos hpos
  have hx : (p, dictGet langs p) ∈ langs := dictGet_mem hk
  have hvismem : (p, dictGet langs p) ∈ selectVisible langs := mem_selectVisible_prio hp hk
  have hvisnd : (keys (selectVisible langs)).Nodup := keys_selectVisible_nodup hnd
  have hvget : dictGet (selectVisible langs) p = dictGet langs p :=
    dictGet_eq_of_mem hvisnd hvismem
  have hkvis : p ∈ keys (selectVisible langs) := List.mem_map_of_mem Prod.fst hvismem
  have hvpos : 0 < sumValues (selectVisible langs) :=
    sumValues_selectVisible_pos hnd hnn hx hpos
  have hnorm_eq : normalizeInit (selectVisible langs) =
      (selectVisible langs).map
        (fun kv => (kv.1, kv.2 / sumValues (selectVisible langs) * 100)) :=
    normalizeInit_of_ne (ne_of_gt hvpos)
  have hnget : dictGet (normalizeInit (selectVisible langs)) p =
      dictGet langs p / sumValues (selectVisible langs) * 100 := by
    rw [hnorm_eq,
      dictGet_mapVal (fun _ v => v / sumValues (selectVisible langs) * 100) hkvis, hvget]
  have hnkeys : keys (normalizeInit (selectVisible langs)) = keys (selectVisible langs) := by
    rw [hnorm_eq]
    exact keys_mapVal (fun _ v => v / sumValues (selectVisible langs) * 100) (selectVisible langs)
  have hknorm : p ∈ keys (normalizeInit (selectVisible langs)) := by rw [hnkeys]; exact hkvis
  have hfl_get : dictGet (applyFloor (normalizeInit (selectVisible langs))) p =
      if p ∈ PRIORITY_LANGS ∧ dictGet (normalizeInit (selectVisible langs)) p < 1 then 1
      else dictGet (normalizeInit (selectVisible langs)) p := by
    unfold applyFloor
    exact dictGet_mapVal (fun k v => if k ∈ PRIORITY_LANGS ∧ v < 1 then 1 else v) hknorm
  constructor
  · rw [hfl_get]
    split_ifs with hc
    · exact le_refl 1
    · rw [not_and] at hc
      exact le_of_not_lt (hc hp)
  · have hnn_norm : ∀ kv ∈ normalizeInit (selectVisible langs), 0 ≤ kv.2 :=
      values_nonneg_normalizeInit (values_nonneg_selectVisible hnn)
    have hle := sumValues_applyFloor_le hnn_norm
    have hsum100 : sumValues (normalizeInit (selectVisible langs)) = 100 :=
      sumValues_normalizeInit (ne_of_gt hvpos)
    have hcount : (normalizeInit (selectVisible langs)).countP
        (fun kv => decide (kv.1 ∈ PRIORITY_LANGS)) ≤ 6 := by
      apply countPrio_le_six
      rw [hnkeys]
      exact hvisnd
    have hcount' : ((normalizeInit (selectVisible langs)).countP
        (fun kv => decide (kv.1 ∈ PRIORITY_LANGS)) : ℚ) ≤ 6 := by
      exact_mod_cast hcount
    linarith

theorem priority_final_ge {langs : Langs} {p : String}
    (hnd : (keys langs).Nodup) (hnn : ∀ kv ∈ langs, 0 ≤ kv.2)
    (hp : p ∈ PRIORITY_LANGS) (hpos : 0 < dictGet langs p) :
    ∃ out, create_langs_svg langs = some out ∧ 100 / 106 ≤ dictGet out p := by
  have hk : p ∈ keys langs := mem_keys_of_dictGet_pos hpos
  have hx : (p, dictGet langs p) ∈ langs := dictGet_mem hk
  obtain ⟨heq, hge⟩ := create_svg_some hnd hnn hx hpos
  obtain ⟨hfl1, h106⟩ := priority_after_floor hnd hnn hp hpos
  refine ⟨_, heq, ?_⟩
  have hkfl : p ∈ keys (applyFloor (normalizeInit (selectVisible langs))) := by
    unfold applyFloor
    rw [keys_mapVal (fun k v => if k ∈ PRIORITY_LANGS ∧ v < 1 then 1 else v)]
    have hvismem : (p, dictGet langs p) ∈ selectVisible langs := mem_selectVisible_prio hp hk
    have hkvis : p ∈ keys (selectVisible langs) := List.mem_map_of_mem Prod.fst hvismem
    have hvpos : 0 < sumValues (selectVisible langs) :=
      sumValues_selectVisible_pos hnd hnn hx hpos
    rw [normalizeInit_of_ne (ne_of_gt hvpos),
      keys_mapVal (fun _ v => v / sumValues (selectVisible langs) * 100)]
    exact hkvis
  rw [dictGet_mapVal
    (fun _ v => v / sumValues (applyFloor (normalizeInit (selectVisible langs))) * 100) hkfl]
  have hSpos : 0 < sumValues (applyFloor (normalizeInit (selectVisible langs))) := by linarith
  rw [div_mul_eq_mul_div, div_le_div_iff₀ (by norm_num) hSpos]
  nlinarith

/-!  Sum of the accumulator built by the diversity-weighted aggregation. -/

theorem sumValues_foldl_dictAdd (f : String × Nat → ℚ) :
    ∀ (ld : List (String × Nat)) (acc : Langs),
      sumValues (ld.foldl (fun a kv => dictAdd a kv.1 (f kv)) acc)
        = sumValues acc + (ld.map f).sum := by
  intro ld
  induction ld with
  | nil => intro acc; simp
  | cons kv rest ih =>
    intro acc
    simp only [List.foldl_cons, List.map_cons, List.sum_cons]
    rw [ih (dictAdd acc kv.1 (f kv)), sumValues_dictAdd]
    ring

theorem sum_densities (ld : List (String × Nat)) (T n : ℚ) :
    (ld.map (fun kv => (kv.2 : ℚ) / T / n)).sum = (repoTotal ld : ℚ) / T / n := by
  induction ld with
  | nil => simp [repoTotal]
  | cons kv rest ih =>
    simp only [List.map_cons, List.sum_cons, repoTotal] at ih ⊢
    push_cast
    rw [ih]
    push_cast
    ring

theorem sumValues_aggStepLG (n : Nat) (acc : Langs) (r : LangRepo) :
    sumValues (aggStepLG n acc r)
      = sumValues acc + (if goodRepo r then ((n : ℚ))⁻¹ else 0) := by
  unfold aggStepLG goodRepo
  rcases r with ⟨fork, name, langs⟩
  rcases langs with _ | ld
  · cases fork <;> simp
  · cases fork
    · simp only [Bool.not_false, Bool.true_and, Bool.false_eq_true, if_false]
      by_cases hld : ld = []
      · subst hld
        simp [repoTotal]
      · rw [if_neg hld]
        by_cases htot : 0 < repoTotal ld
        · have hgd : decide (0 < repoTotal ld) = true := by simp [htot]
          rw [if_pos htot,
            sumValues_foldl_dictAdd (fun kv => (kv.2 : ℚ) / (repoTotal ld : ℚ) / (n : ℚ)),
            sum_densities]
          have hT : (repoTotal ld : ℚ) ≠ 0 := by
            exact_mod_cast Nat.pos_iff_ne_zero.mp htot
          rw [div_self hT]
          simp [hgd, one_div]
        · have hgd : decide (0 < repoTotal ld) = false := by simp [htot]
          rw [if_neg htot]
          simp [hgd]
    · simp

theorem sumValues_foldl_aggStepLG (n : Nat) :
    ∀ (l : List LangRepo) (acc : Langs),
      sumValues (l.foldl (aggStepLG n) acc)
        = sumValues acc + (l.countP goodRepo : ℚ) / (n : ℚ) := by
  intro l
  induction l with
  | nil => intro acc; simp
  | cons r rest ih =>
    intro acc
    simp only [List.foldl_cons, List.countP_cons]
    rw [ih (aggStepLG n acc r), sumValues_aggStepLG]
    by_cases hg : goodRepo r
    · simp only [hg, if_pos]
      push_cast [hg]
      rw [add_div]
      simp [one_div]
      ring
    · have : goodRepo r = false := Bool.eq_false_iff.mpr hg
      simp only [this]
      norm_num

theorem sumValues_aggregateLG (repos : List LangRepo) :
    sumValues (aggregateLG repos)
      = (repos.countP goodRepo : ℚ) / (repos.length : ℚ) := by
  unfold aggregateLG
  rw [sumValues_foldl_aggStepLG]
  simp [sumValues]

/-!  Grader monotonicity. -/

theorem grade_st_mono {a b : ℚ} (h : a ≤ b) : (grade_st a).2 ≤ (grade_st b).2 := by
  unfold grade_st
  split_ifs <;> simp_all <;> linarith

theorem grade_gs_mono {a b : ℚ} (h : a ≤ b) : (grade_gs a).2 ≤ (grade_gs b).2 := by
  unfold grade_gs
  split_ifs <;> simp_all <;> linarith

theorem score_st_mono {sA pA iA cA sB pB iB cB : Nat} {mA mB : ℚ}
    (hs : sA ≤ sB) (hm : mA ≤ mB) (hp : pA ≤ pB) (hi : iA ≤ iB) (hc : cA ≤ cB) :
    score_st sA mA pA iA cA ≤ score_st sB mB pB iB cB := by
  unfold score_st
  have h1 : (sA : ℚ) ≤ (sB : ℚ) := by exact_mod_cast hs
  have h2 : (pA : ℚ) ≤ (pB : ℚ) := by exact_mod_cast hp
  have h3 : (iA : ℚ) ≤ (iB : ℚ) := by exact_mod_cast hi
  have h4 : (cA : ℚ) ≤ (cB : ℚ) := by exact_mod_cast hc
  linarith

theorem score_gs_mono {sA pA iA cA sB pB iB cB : Nat} {mA mB : ℚ}
    (hs : sA ≤ sB) (hm : mA ≤ mB) (hp : pA ≤ pB) (hi : iA ≤ iB) (hc : cA ≤ cB) :
    score_gs sA mA pA iA cA ≤ score_gs sB mB pB iB cB := by
  unfold score_gs
  have h1 : (sA : ℚ) ≤ (sB : ℚ) := by exact_mod_cast hs
  have h2 : (pA : ℚ) ≤ (pB : ℚ) := by exact_mod_cast hp
  have h3 : (iA : ℚ) ≤ (iB : ℚ) := by exact_mod_cast hi
  have h4 : (cA : ℚ) ≤ (cB : ℚ) := by exact_mod_cast hc
  linarith

/-!  Pagination loop support. -/

theorem fetchLoop_all_none {α : Type} {src : Nat → Option (List α)} (h : ∀ n, src n = none) :
    ∀ (fuel page : Nat), (fetchLoop src fuel page).1 = [] := by
  intro fuel page
  cases fuel with
  | zero => rfl
  | succ f => simp [fetchLoop, h page]

/-!  Claim theorems. -/

/-- C1 counterexample: the non-empty all-zero distribution `{"HTML": 0}`
breaks the claimed sum. In generate_stats.py the selection keeps HTML, every
percentage becomes 0, no floor applies (HTML is not a priority language),
and the unguarded re-normalization divides by the zero total (`none`); in
languages.py the guarded variant returns percentages summing to 0, not 100. -/
theorem C1_counterexample :
    create_langs_svg [("HTML", 0)] = none ∧
    sumValues (create_langs_svg_lg [("HTML", 0)]) = 0 := by
  constructor
  · norm_num +decide [create_langs_svg, renorm, applyFloor, normalizeInit, selectVisible,
      PRIORITY_LANGS, keys, dictGet, sumValues, sortByValueDesc, List.insertionSort,
      List.orderedInsert]
  · norm_num +decide [create_langs_svg_lg, renormLG, applyFloor, PRIORITY_LANGS,
      keys, dictGet, sumValues, sortByValueDesc, List.insertionSort, List.orderedInsert]

/-- C1 amended: for every language distribution with unique keys,
non-negative weights and at least one strictly positive weight, the final
visible percentages of generate_stats.py's `create_langs_svg` sum to exactly
100 (hence within 1e-6), whatever floor corrections were applied, and the
languages.py variant does the same. -/
theorem C1_normalizer_sum_100 (langs : Langs)
    (hnd : (keys langs).Nodup) (hnn : ∀ kv ∈ langs, 0 ≤ kv.2)
    (hpos : ∃ kv, kv ∈ langs ∧ 0 < kv.2) :
    (∃ out, create_langs_svg langs = some out ∧ sumValues out = 100) ∧
    sumValues (create_langs_svg_lg langs) = 100 := by
  obtain ⟨x, hx, hxp⟩ := hpos
  exact ⟨create_svg_sum_100 hnd hnn hx hxp, create_svg_lg_sum_100 hnn hx hxp⟩

/-- C1 witness at the concrete distribution `{"Python": 50}`. -/
theorem C1_normalizer_sum_100_witness :
    (∃ out, create_langs_svg [("Python", 50)] = some out ∧ sumValues out = 100) ∧
    sumValues (create_langs_svg_lg [("Python", 50)]) = 100 :=
  C1_normalizer_sum_100 [("Python", 50)] (by decide)
    (by
      intro kv hkv
      rcases List.mem_singleton.mp hkv with rfl
      norm_num)
    ⟨("Python", 50), List.mem_singleton.mpr rfl, by norm_num⟩

/-- C2 counterexample: for the input `{"Python": 1000000, "R": 1}` the
priority language R has nonzero weight, is floored to 1.0 in step 5, but the
re-normalization of step 6 divides by the post-floor total (slightly above
100) and leaves R at 100000100/101000001, which is below 1. -/
theorem C2_counterexample :
    create_langs_svg [("Python", 1000000), ("R", 1)] =
      some [("Python", 10000000000 / 101000001), ("R", 100000100 / 101000001)] ∧
    dictGet [("Python", (10000000000 : ℚ) / 101000001), ("R", 100000100 / 101000001)] "R" < 1 := by
  constructor
  · norm_num +decide [create_langs_svg, renorm, applyFloor, normalizeInit, selectVisible,
      PRIORITY_LANGS, keys, dictGet, sumValues, sortByValueDesc, List.insertionSort,
      List.orderedInsert]
  · norm_num +decide [dictGet]

/-- C2 amended: a priority member with nonzero weight always reaches at
least 1.0 after the visibility floor of step 5; the re-normalization of
step 6 divides by the post-floor total, which lies in (0, 106], so the
final percentage is only guaranteed to be at least 100/106 (about 0.943),
not 1.0. -/
theorem C2_priority_floor_bound (langs : Langs) (p : String)
    (hnd : (keys langs).Nodup) (hnn : ∀ kv ∈ langs, 0 ≤ kv.2)
    (hp : p ∈ PRIORITY_LANGS) (hw : 0 < dictGet langs p) :
    1 ≤ dictGet (applyFloor (normalizeInit (selectVisible langs))) p ∧
    ∃ out, create_langs_svg langs = some out ∧ 100 / 106 ≤ dictGet out p :=
  ⟨(priority_after_floor hnd hnn hp hw).1, priority_final_ge hnd hnn hp hw⟩

/-- C2 witness at the concrete distribution `{"R": 5, "HTML": 3}`. -/
theorem C2_priority_floor_bound_witness :
    1 ≤ dictGet (applyFloor (normalizeInit (selectVisible [("R", 5), ("HTML", 3)]))) "R" ∧
    ∃ out, create_langs_svg [("R", 5), ("HTML", 3)] = some out ∧
      100 / 106 ≤ dictGet out "R" :=
  C2_priority_floor_bound [("R", 5), ("HTML", 3)] "R" (by decide)
    (by
      intro kv hkv
      simp only [List.mem_cons, List.mem_singleton, List.not_mem_nil, or_false] at hkv
      rcases hkv with rfl | rfl <;> norm_num)
    (by decide)
    (by norm_num +decide [dictGet])

/-- C6: with one repository 100 percent Python (1000 bytes) and one split
50/50 between Python and R (1000 bytes), both aggregation loops produce the
accumulator with Python weight exactly 3/4 and R weight exactly 1/4, before
the visible cap and normalization. -/
theorem C6_diversity_weighted :
    aggregateLG demoRepos = [("Python", 3 / 4), ("R", 1 / 4)] ∧
    aggregateGS demoRepos = [("Python", 3 / 4), ("R", 1 / 4)] ∧
    dictGet (aggregateLG demoRepos) "Python" = 3 / 4 ∧
    dictGet (aggregateLG demoRepos) "R" = 1 / 4 := by
  have h1 : aggregateLG demoRepos = [("Python", 3 / 4), ("R", 1 / 4)] := by
    norm_num +decide [demoRepos, aggregateLG, aggStepLG, repoTotal, dictAdd]
  have h2 : aggregateGS demoRepos = [("Python", 3 / 4), ("R", 1 / 4)] := by
    norm_num +decide [demoRepos, aggregateGS, aggStepGS, repoTotal, dictAdd]
  refine ⟨h1, h2, ?_, ?_⟩ <;> rw [h1] <;> norm_num +decide [dictGet]

/-- C7 counterexample: the claim also covers the languages.py normalizer
(lines 90-91), but that selection is a plain top-18 slice with no
force-include: in `wideLangs` the priority language R is present in the
accumulator yet nineteen non-priority languages outrank it, and R is absent
from the visible set languages.py renders. -/
theorem C7_counterexample :
    "R" ∈ PRIORITY_LANGS ∧ "R" ∈ keys wideLangs ∧
    "R" ∉ keys (create_langs_svg_lg wideLangs) := by
  refine ⟨by decide, by decide, ?_⟩
  norm_num +decide [create_langs_svg_lg, renormLG, applyFloor, PRIORITY_LANGS,
    keys, sumValues, sortByValueDesc, List.insertionSort, List.orderedInsert, wideLangs]

/-- C7 amended: in generate_stats.py's normalizer a priority language present
in the accumulator is always part of the visible selection — step 1
force-includes it first, consuming at most 6 of the 18 slots, so the cap
never excludes it even when more than 18 other languages have higher
weight — and the selection never exceeds 18 entries. The languages.py
normalizer instead takes a plain top 18 by weight and can drop a present
priority language (see the counterexample). -/
theorem C7_priority_in_visible (langs : Langs) (p : String)
    (hp : p ∈ PRIORITY_LANGS) (hk : p ∈ keys langs) :
    p ∈ keys (selectVisible langs) ∧ (selectVisible langs).length ≤ 18 :=
  ⟨List.mem_map_of_mem Prod.fst (mem_selectVisible_prio hp hk), length_selectVisible_le langs⟩

/-- C7 witness: in `wideLangs` nineteen non-priority languages outrank R,
yet R is part of the visible selection. -/
theorem C7_priority_in_visible_witness :
    "R" ∈ keys (selectVisible wideLangs) ∧ (selectVisible wideLangs).length ≤ 18 :=
  C7_priority_in_visible wideLangs "R" (by decide) (by decide)

/-- C8: the compact formatter of stats.py turns 17432 into the string
"17.4k", the grader's commit parser maps that string back to 17400 — which
is 17432 rounded down to the nearest hundred, so well within the ±100
tolerance — and the same parser maps "13.8k+" to 13800. -/
theorem C8_commit_round_trip :
    format_commits 17432 = "17.4k".toList ∧
    parse_commits (format_commits 17432) = some 17400 ∧
    (17432 / 100) * 100 = 17400 ∧
    parse_commits ("13.8k+".toList) = some 13800 := by
  refine ⟨by decide, ?_, by norm_num, ?_⟩
  · have h1 : format_commits 17432 = ['1', '7', '.', '4', 'k'] := by decide
    have h2 : natOfDigits ['1', '7'] = 17 := by decide
    have h3 : natOfDigits ['4'] = 4 := by decide
    rw [h1]
    norm_num +decide [parse_commits, parseFloat, replaceK, replaceKPlus, isDigit, h2, h3]
  · have h2 : natOfDigits ['1', '3'] = 13 := by decide
    have h3 : natOfDigits ['8'] = 8 := by decide
    norm_num +decide [parse_commits, parseFloat, replaceK, replaceKPlus, isDigit, h2, h3]

/-- C3: both graders are monotone — with every field of snapshot A at most
the corresponding field of snapshot B (all non-negative), the percentile of
A is at most the percentile of B — and every score maps to exactly one
grade-and-percentile pair (the threshold tables are deterministic and
total). -/
theorem C3_grader_monotone :
    (∀ (sA pA iA cA sB pB iB cB : Nat) (mA mB : ℚ),
      0 ≤ mA → sA ≤ sB → mA ≤ mB → pA ≤ pB → iA ≤ iB → cA ≤ cB →
      (grade_st (score_st sA mA pA iA cA)).2 ≤ (grade_st (score_st sB mB pB iB cB)).2 ∧
      (grade_gs (score_gs sA mA pA iA cA)).2 ≤ (grade_gs (score_gs sB mB pB iB cB)).2) ∧
    (∀ q : ℚ, ∃! r, grade_st q = r) ∧ (∀ q : ℚ, ∃! r, grade_gs q = r) := by
  refine ⟨?_, fun q => ⟨grade_st q, rfl, fun r hr => hr.symm⟩,
    fun q => ⟨grade_gs q, rfl, fun r hr => hr.symm⟩⟩
  intro sA pA iA cA sB pB iB cB mA mB _ hs hm hp hi hc
  exact ⟨grade_st_mono (score_st_mono hs hm hp hi hc),
    grade_gs_mono (score_gs_mono hs hm hp hi hc)⟩

/-- C3 witness comparing the zero snapshot with a larger one. -/
theorem C3_grader_monotone_witness :
    (grade_st (score_st 0 0 0 0 0)).2 ≤ (grade_st (score_st 10 500 3 2 1)).2 ∧
    (grade_gs (score_gs 0 0 0 0 0)).2 ≤ (grade_gs (score_gs 10 500 3 2 1)).2 :=
  C3_grader_monotone.1 0 0 0 0 10 3 2 1 0 500 (by norm_num) (by norm_num)
    (by norm_num) (by norm_num) (by norm_num) (by norm_num)

/-- C4: a listing source serving pages of sizes 100, 100 and 37 makes the
pagination loop request exactly pages 1, 2 and 3 and accumulate all 237
records: it starts at page 1, continues only while a page holds exactly 100
records, and an undersized page is kept and stops the loop (a `None` or
empty page would stop it too, keeping what was already collected). -/
theorem fetchLoop_succ_some {α : Type} {src : Nat → Option (List α)} {l : List α}
    {page : Nat} (h : src page = some l) (fuel : Nat) :
    fetchLoop src (fuel + 1) page =
      if l.length = 0 then ([], [page])
      else if l.length < 100 then (l, [page])
      else (l ++ (fetchLoop src fuel (page + 1)).1, page :: (fetchLoop src fuel (page + 1)).2) := by
  simp only [fetchLoop, h]

theorem C4_pagination {α : Type} (src : Nat → Option (List α)) (l1 l2 l3 : List α)
    (fuel : Nat) (h1 : src 1 = some l1) (hl1 : l1.length = 100)
    (h2 : src 2 = some l2) (hl2 : l2.length = 100)
    (h3 : src 3 = some l3) (hl3 : l3.length = 37) (hfuel : 3 ≤ fuel) :
    fetchLoop src fuel 1 = (l1 ++ (l2 ++ l3), [1, 2, 3]) ∧
    (fetchLoop src fuel 1).1.length = 237 := by
  obtain ⟨k, rfl⟩ : ∃ k, fuel = k + 3 := ⟨fuel - 3, by omega⟩
  have e3 : fetchLoop src (k + 1) 3 = (l3, [3]) := by
    rw [fetchLoop_succ_some h3 k]
    simp [hl3]
  have e2 : fetchLoop src (k + 2) 2 = (l2 ++ l3, [2, 3]) := by
    rw [show k + 2 = (k + 1) + 1 from rfl, fetchLoop_succ_some h2 (k + 1)]
    simp [hl2, e3]
  have e1 : fetchLoop src (k + 3) 1 = (l1 ++ (l2 ++ l3), [1, 2, 3]) := by
    rw [show k + 3 = (k + 2) + 1 from rfl, fetchLoop_succ_some h1 (k + 2)]
    simp [hl1, e2]
  refine ⟨e1, ?_⟩
  rw [e1]
  simp [hl1, hl2, hl3]

/-- C4 witness on the concrete paged source. -/
theorem C4_pagination_witness :
    fetchLoop pagedSrc 10 1 =
      (List.replicate 100 0 ++ (List.replicate 100 1 ++ List.replicate 37 2), [1, 2, 3]) ∧
    (fetchLoop pagedSrc 10 1).1.length = 237 :=
  C4_pagination pagedSrc (List.replicate 100 0) (List.replicate 100 1)
    (List.replicate 37 2) 10 rfl (by decide) rfl (by decide) rfl (by decide) (by norm_num)

/-- C5: when every repository-listing fetch fails and the cache holds a
snapshot, stats.py renders exactly the cached snapshot and writes nothing to
the cache; on any successful run (the repository list is non-empty) the
rendered snapshot is persisted precisely when its star count is positive,
and languages.py persists its accumulator precisely when the distribution
sum is positive. -/
theorem C5_resilience_cache :
    (∀ (env : StatsEnv) (fuel : Nat) (c : StatsDict),
      (∀ n, env.listRepos n = none) → env.cache = some c →
      mainStats env fuel = (some c, none)) ∧
    (∀ (env : StatsEnv) (fuel : Nat),
      (fetchLoop env.listRepos fuel 1).1 ≠ [] →
      ∃ s, mainStats env fuel = (some s, if 0 < s.stars then some s else none)) ∧
    (∀ (env : LangsEnv) (fuel : Nat),
      (fetchLoop env.listRepos fuel 1).1 ≠ [] →
      ∃ a, mainLangs env fuel = (some a, if 0 < sumValues a then some a else none)) := by
  refine ⟨?_, ?_, ?_⟩
  · intro env fuel c hfail hcache
    have hrep : (fetchLoop env.listRepos fuel 1).1 = [] := fetchLoop_all_none hfail fuel 1
    simp only [mainStats]
    rw [if_pos hrep, hcache]
  · intro env fuel hne
    simp only [mainStats]
    rw [if_neg hne]
    exact ⟨_, rfl⟩
  · intro env fuel hne
    simp only [mainLangs]
    rw [if_neg hne]
    exact ⟨_, rfl⟩

/-- C5 witness: the all-failing environment with the cached snapshot
`{stars: 500, commits: "10k+", prs: 20, issues: 5, contribs: 3}` renders
that snapshot and writes nothing, and the two one-repository environments
exercise the success-path persistence guard. -/
theorem C5_resilience_cache_witness :
    mainStats envAllFail 5 = (some ⟨500, "10k+".toList, 20, 5, 3⟩, none) ∧
    (∃ s, mainStats envOneRepo 1 = (some s, if 0 < s.stars then some s else none)) ∧
    (∃ a, mainLangs envOneLangRepo 1 = (some a, if 0 < sumValues a then some a else none)) :=
  ⟨C5_resilience_cache.1 envAllFail 5 ⟨500, "10k+".toList, 20, 5, 3⟩ (fun _ => rfl) rfl,
   C5_resilience_cache.2.1 envOneRepo 1 (by decide),
   C5_resilience_cache.2.2 envOneLangRepo 1 (by decide)⟩

/-- C9 counterexample: on the non-empty all-zero accumulator
`{"HTML": 0, "CSS": 0}` the generate_stats.py pipeline performs a division
whose divisor is zero — the post-floor re-normalization has no guard — so
the claim that no division by zero ever happens fails (`none` models the
`ZeroDivisionError`). -/
theorem C9_counterexample : create_langs_svg [("HTML", 0), ("CSS", 0)] = none := by
  norm_num +decide [create_langs_svg, renorm, applyFloor, normalizeInit, selectVisible,
    PRIORITY_LANGS, keys, dictGet, sumValues, sortByValueDesc, List.insertionSort,
    List.orderedInsert]

/-- C9 amended: the aggregation loop skips a failed fetch and a zero-total
repository without dividing; both normalizers guard the initial percentage
division by treating a zero total as 1 (languages.py guards the re-division
too, so it's total); generate_stats.py's re-normalization divides by the
post-floor total unguarded — it is well-defined on the empty input and on
every input with a positive weight, but divides by zero on non-empty
all-zero selections without priority keys (see the counterexample). -/
theorem C9_division_guards :
    (∀ (n : Nat) (acc : Langs) (r : LangRepo), r.langs = none → aggStepLG n acc r = acc) ∧
    (∀ (n : Nat) (acc : Langs) (r : LangRepo) (ld : List (String × Nat)),
      r.langs = some ld → repoTotal ld = 0 → aggStepLG n acc r = acc) ∧
    (∀ vis : Langs, sumValues vis = 0 →
      renormLG vis = vis.map (fun kv => (kv.1, kv.2 / 1 * 100))) ∧
    (∀ vis : Langs, sumValues vis = 0 →
      normalizeInit vis = vis.map (fun kv => (kv.1, kv.2 / 1 * 100))) ∧
    create_langs_svg [] = some [] ∧
    (∀ langs : Langs, (keys langs).Nodup → (∀ kv ∈ langs, 0 ≤ kv.2) →
      (∃ kv, kv ∈ langs ∧ 0 < kv.2) → (create_langs_svg langs).isSome) := by
  refine ⟨?_, ?_, ?_, ?_, ?_, ?_⟩
  · intro n acc r h
    simp [aggStepLG, h]
  · intro n acc r ld h htot
    by_cases hld : ld = []
    · simp [aggStepLG, h, hld]
    · simp [aggStepLG, h, hld, htot]
  · intro vis h
    simp [renormLG, h]
  · intro vis h
    simp [normalizeInit, h]
  · norm_num +decide [create_langs_svg, renorm, applyFloor, normalizeInit, selectVisible,
      PRIORITY_LANGS, keys, dictGet, sumValues, sortByValueDesc, List.insertionSort,
      List.orderedInsert]
  · intro langs hnd hnn hpos
    obtain ⟨x, hx, hxp⟩ := hpos
    obtain ⟨out, hout, _⟩ := create_svg_sum_100 hnd hnn hx hxp
    simp [hout]

/-- C9 witness instantiating each guard at a concrete input. -/
theorem C9_division_guards_witness :
    aggStepLG 2 [("Go", 1)] ⟨false, "dead", none⟩ = [("Go", 1)] ∧
    aggStepLG 2 [("Go", 1)] ⟨false, "empty", some [("C", 0)]⟩ = [("Go", 1)] ∧
    renormLG [("HTML", 0)] = [("HTML", 0)].map (fun kv => (kv.1, kv.2 / 1 * 100)) ∧
    normalizeInit [("CSS", 0)] = [("CSS", 0)].map (fun kv => (kv.1, kv.2 / 1 * 100)) ∧
    (create_langs_svg [("R", 2)]).isSome :=
  ⟨C9_division_guards.1 2 [("Go", 1)] ⟨false, "dead", none⟩ rfl,
   C9_division_guards.2.1 2 [("Go", 1)] ⟨false, "empty", some [("C", 0)]⟩ [("C", 0)] rfl
     (by decide),
   C9_division_guards.2.2.1 [("HTML", 0)] (by norm_num [sumValues]),
   C9_division_guards.2.2.2.1 [("CSS", 0)] (by norm_num [sumValues]),
   C9_division_guards.2.2.2.2.2 [("R", 2)] (by decide)
     (by
       intro kv hkv
       rcases List.mem_singleton.mp hkv with rfl
       norm_num)
     ⟨("R", 2), List.mem_singleton.mpr rfl, by norm_num⟩⟩

/-- C10: the accumulator built by the languages.py loop always sums to at
most 1; on a non-empty portfolio it equals exactly the number of non-fork
repositories with a successfully fetched, nonzero-byte language map divided
by the total repository count (the loop divides by `len(repos)`, not by the
decremented non-fork count), and it is strictly below 1 as soon as any fork
or any failed language fetch is present. -/
theorem C10_aggregate_weight_invariant (repos : List LangRepo) :
    sumValues (aggregateLG repos) ≤ 1 ∧
    (repos ≠ [] →
      sumValues (aggregateLG repos) = (repos.countP goodRepo : ℚ) / (repos.length : ℚ)) ∧
    ((∃ r ∈ repos, r.fork = true ∨ r.langs = none) → sumValues (aggregateLG repos) < 1) := by
  refine ⟨?_, fun _ => sumValues_aggregateLG repos, ?_⟩
  · by_cases hrep : repos = []
    · subst hrep
      simp [aggregateLG, sumValues]
    · rw [sumValues_aggregateLG]
      have hlen : 0 < repos.length := List.length_pos.mpr hrep
      rw [div_le_one (by exact_mod_cast hlen)]
      exact_mod_cast List.countP_le_length goodRepo
  · rintro ⟨r, hr, hbad⟩
    have hbadR : goodRepo r = false := by
      rcases hbad with hf | hn
      · simp [goodRepo, hf]
      · simp [goodRepo, hn]
    have hlt : repos.countP goodRepo < repos.length := by
      rcases lt_or_eq_of_le (List.countP_le_length goodRepo) with h | h
      · exact h
      · exfalso
        have := List.countP_eq_length.mp h r hr
        rw [hbadR] at this
        simp at this
    have hlen : 0 < repos.length := List.length_pos.mpr (List.ne_nil_of_mem hr)
    rw [sumValues_aggregateLG, div_lt_one (by exact_mod_cast hlen)]
    exact_mod_cast hlt

/-- C10 witness on a portfolio with a fork, a good repository and a failed
fetch: the accumulator sums to 1/3. -/
theorem C10_aggregate_weight_invariant_witness :
    sumValues (aggregateLG invRepos) ≤ 1 ∧
    sumValues (aggregateLG invRepos) = (invRepos.countP goodRepo : ℚ) / (invRepos.length : ℚ) ∧
    sumValues (aggregateLG invRepos) < 1 := by
  have h := C10_aggregate_weight_invariant invRepos
  exact ⟨h.1, h.2.1 (by decide),
    h.2.2 ⟨⟨true, "fork-repo", some [("HTML", 10)]⟩, by decide, Or.inl rfl⟩⟩
